import Mathlib

/-!
Verification of the Hebrew-PDF-to-English-docx pipeline (src/app.py).

Python strings are modelled as lists of characters (`PyStr`).  The external
collaborators (PyMuPDF page extraction, the OpenAI responses endpoint) are
modelled as abstract functions supplied as parameters; fallible calls return
`Except`.  Every remote translation call is counted explicitly so that
"no call is made" / "exactly one call is made" claims are provable.
-/

abbrev PyStr := List Char

/-- Python whitespace class used by str.strip: space, tab, LF, CR, VT, FF. -/
def isPySpace (c : Char) : Bool :=
  c == ' ' || c == '\t' || c == '\n' || c == '\r' || c == '\x0b' || c == '\x0c'

/-- Horizontal whitespace, the regex class of space and tab. -/
def isHT (c : Char) : Bool := c == ' ' || c == '\t'

/-- Leading-whitespace removal, the left half of Python str.strip. -/
def lstrip (l : PyStr) : PyStr := l.dropWhile isPySpace

/-- Trailing-whitespace removal, the right half of Python str.strip. -/
def rstrip (l : PyStr) : PyStr := (l.reverse.dropWhile isPySpace).reverse

/-- Python str.strip(). -/
def pyStrip (l : PyStr) : PyStr := rstrip (lstrip l)

/-- Python text.replace of CRLF by LF, leftmost non-overlapping. -/
def replCRLF : PyStr → PyStr
  | [] => []
  | [c] => [c]
  | c1 :: c2 :: rest =>
    if c1 = '\r' ∧ c2 = '\n' then '\n' :: replCRLF rest
    else c1 :: replCRLF (c2 :: rest)

/-- Python text.replace of CR by LF. -/
def replCR (l : PyStr) : PyStr := l.map (fun c => if c = '\r' then '\n' else c)

/-- State machine for the regex substitution collapsing each maximal run of
space and tab characters to one space; the flag records whether we are inside
a run whose single space was already emitted. -/
def chtGo : Bool → PyStr → PyStr
  | _, [] => []
  | b, c :: rest =>
    if isHT c then
      if b then chtGo true rest else ' ' :: chtGo true rest
    else c :: chtGo false rest

/-- The regex substitution replacing every [ \t]+ run by a single space. -/
def collapseHT (l : PyStr) : PyStr := chtGo false l

/-- State machine for the regex substitution replacing every run of three or
more line feeds by exactly two; the counter records how many line feeds of the
current run were already emitted (saturating at 2). -/
def cnlGo : Nat → PyStr → PyStr
  | _, [] => []
  | k, c :: rest =>
    if c = '\n' then
      if k < 2 then '\n' :: cnlGo (k + 1) rest else cnlGo k rest
    else c :: cnlGo 0 rest

/-- The regex substitution bounding line-feed runs at two. -/
def collapseNL (l : PyStr) : PyStr := cnlGo 0 l

/-- normalize_whitespace from src/app.py: CRLF and CR to LF, horizontal
whitespace runs to one space, line-feed runs bounded at two, then strip. -/
def normalize_whitespace (text : PyStr) : PyStr :=
  pyStrip (collapseNL (collapseHT (replCR (replCRLF text))))

/-- Prepend a character to the first segment of a split result. -/
def consHead (c : Char) : List PyStr → List PyStr
  | [] => [[c]]
  | s :: ss => (c :: s) :: ss

/-- Python translated.split applied to the separator of two line feeds:
leftmost non-overlapping splitting. -/
def pySplit2NL : PyStr → List PyStr
  | [] => [[]]
  | [c] => [[c]]
  | c1 :: c2 :: rest =>
    if c1 = '\n' ∧ c2 = '\n' then [] :: pySplit2NL rest
    else consHead c1 (pySplit2NL (c2 :: rest))

/-- Drop leading line feeds. -/
def dropNl (l : PyStr) : PyStr := l.dropWhile (fun c => c = '\n')

/-- Modelled from the spec: splitting on blank-line boundaries, where a
boundary is a maximal run of two or more consecutive line feeds. -/
def specSplitNL : PyStr → List PyStr
  | [] => [[]]
  | [c] => [[c]]
  | c1 :: c2 :: rest =>
    if c1 = '\n' ∧ c2 = '\n' then [] :: specSplitNL (dropNl rest)
    else consHead c1 (specSplitNL (c2 :: rest))
termination_by l => l.length
decreasing_by
  · simp only [dropNl, List.length_cons]
    have h := (List.dropWhile_sublist (l := rest) (fun c => decide (c = '\n'))).length_le
    omega
  · simp [List.length_cons]

/-- Trim each segment and drop the empty ones, as the paragraph loop of
build_docx does. -/
def segsQ (xs : List PyStr) : List PyStr :=
  (xs.map pyStrip).filter (fun p => !p.isEmpty)

/-- The paragraphs build_docx emits for one page of translated text. -/
def docParagraphs (translated : PyStr) : List PyStr :=
  segsQ (pySplit2NL translated)

/-- Modelled from the spec: paragraphs obtained by splitting on runs of two
or more line feeds, trimming, and dropping empty segments. -/
def specParagraphs (translated : PyStr) : List PyStr :=
  segsQ (specSplitNL translated)

/-- One element of the generated Word document. -/
inductive DocElem where
  | heading : Nat → PyStr → DocElem
  | para : PyStr → DocElem
  | pageBreak : DocElem
deriving DecidableEq

/-- build_docx from src/app.py, abstracted to the ordered list of document
elements it emits: per file a level-1 heading, then per page a level-2
heading followed by the non-empty trimmed paragraphs of the translated text
split on double line feeds, and a page break after each file. -/
def build_docx (items : List (PyStr × List (PyStr × PyStr))) : List DocElem :=
  items.flatMap (fun fi =>
    DocElem.heading 1 fi.1 ::
      (fi.2.flatMap (fun pg =>
        DocElem.heading 2 pg.1 :: (docParagraphs pg.2).map DocElem.para)
        ++ [DocElem.pageBreak]))

/-- Modelled from the spec: the assembler description of section 4.4, with
paragraphs split on blank-line boundaries of two or more line feeds. -/
def specBuild_docx (items : List (PyStr × List (PyStr × PyStr))) : List DocElem :=
  items.flatMap (fun fi =>
    DocElem.heading 1 fi.1 ::
      (fi.2.flatMap (fun pg =>
        DocElem.heading 2 pg.1 :: (specParagraphs pg.2).map DocElem.para)
        ++ [DocElem.pageBreak]))

/-- The fixed style options offered by the selectbox in src/app.py. -/
def styleOptions : List PyStr :=
  [("Clear and straightforward").toList,
   ("More literal / closer to Hebrew").toList,
   ("Warm / chassidus-tone (still accurate)").toList,
   ("Academic / formal").toList]

/-- The selectbox returns exactly one of the listed options. -/
def selectStyle (i : Fin styleOptions.length) : PyStr := styleOptions.get i

/-- The fixed placeholder recorded for a page with fewer than ten stripped
characters. -/
def placeholderText : PyStr :=
  ("[No selectable text detected on this page.]\n\nIf this PDF page is a scanned image, you’ll need Hebrew OCR added to the app.").toList

/-- First line of the placeholder. -/
def placeholderLine1 : PyStr :=
  ("[No selectable text detected on this page.]").toList

/-- The OCR sentence forming the second line of the placeholder. -/
def placeholderLine2 : PyStr :=
  ("If this PDF page is a scanned image, you’ll need Hebrew OCR added to the app.").toList

/-- Fixed leading part of the translation prompt, up to the style label. -/
def promptPartA : PyStr :=
  ("You are a careful Hebrew-to-English translator.\nTranslate the text accurately. Do not add commentary.\nPreserve paragraph structure.\n\nTarget style: ").toList

/-- Fixed part of the translation prompt between style and instructions. -/
def promptPartB : PyStr := ("\nExtra instructions: ").toList

/-- Fixed part of the translation prompt between instructions and text. -/
def promptPartC : PyStr := ("\n\nHEBREW TEXT:\n").toList

/-- The f-string prompt of translate_text, stripped, with the literal None
marker substituted for an empty extra-instructions string. -/
def buildPrompt (target_style extra hebrew_text : PyStr) : PyStr :=
  pyStrip (promptPartA ++ target_style ++ promptPartB ++
    (if extra.isEmpty then ("None").toList else extra) ++
    promptPartC ++ hebrew_text ++ [ '\n' ])

/-- translate_text from src/app.py: empty stripped input returns the empty
string without any remote call; otherwise exactly one remote call is made
with the built prompt and its output text (empty when absent) is stripped.
The second component counts remote calls. -/
def translate_text {E : Type} (client : PyStr → Except E (Option PyStr))
    (hebrew_text target_style extra : PyStr) : Except E PyStr × Nat :=
  if (pyStrip hebrew_text).isEmpty then (Except.ok [], 0)
  else ((client (buildPrompt target_style extra hebrew_text)).map
          (fun o => pyStrip (o.getD [])), 1)

/-- The per-page branch of the orchestrator loop: pages whose stripped text
has fewer than ten characters get the placeholder without any call,
other pages are sent to translate_text. -/
def processPage {E : Type} (client : PyStr → Except E (Option PyStr))
    (target_style extra heb : PyStr) : Except E PyStr × Nat :=
  if (pyStrip heb).length < 10 then (Except.ok placeholderText, 0)
  else translate_text client heb target_style extra

/-- extract_pdf_pages_text from src/app.py: the PDF engine is abstracted as
a function from file content to the raw text of each page in physical order
(None when page.get_text returns no text); each page text is defaulted to
empty and normalized, preserving order and count. -/
def extract_pdf_pages_text {E β : Type}
    (getPages : β → Except E (List (Option PyStr))) (pdf_bytes : β) :
    Except E (List PyStr) :=
  (getPages pdf_bytes).map
    (fun raw => raw.map (fun o => normalize_whitespace (o.getD [])))

/-- The extraction pass of the orchestrator: extract every upload in order,
aborting on the first failure. -/
def extractAll {E β : Type} (getPages : β → Except E (List (Option PyStr))) :
    List (PyStr × β) → Except E (List (PyStr × List PyStr))
  | [] => Except.ok []
  | u :: rest =>
    match extract_pdf_pages_text getPages u.2 with
    | Except.error e => Except.error e
    | Except.ok pages =>
      (extractAll getPages rest).map (fun acc => (u.1, pages) :: acc)

/-- Label of the i-th page, 1-based, as rendered by the orchestrator. -/
def pageLabel (i : Nat) : PyStr := ("Page " ++ Nat.repr i).toList

/-- The progress value reported after a page completes: completed over total
with the denominator forced to at least one, clamped at one. -/
def progressValue (done total : Nat) : ℚ :=
  min ((done : ℚ) / ((max total 1 : Nat) : ℚ)) 1

/-- The inner translation loop over the pages of one file: page labels are
1-based per file, the global completed counter advances by one per page, a
progress value is reported after each completed page, and the loop aborts on
the first failing remote call.  Returns the labelled translations, the
number of remote calls made and the reported progress values. -/
def transPagesAux {E : Type} (client : PyStr → Except E (Option PyStr))
    (target_style extra : PyStr) :
    Nat → Nat → Nat → List PyStr →
    Except E (List (PyStr × PyStr)) × Nat × List ℚ
  | _, _, _, [] => (Except.ok [], 0, [])
  | i, done, total, heb :: rest =>
    match processPage client target_style extra heb with
    | (Except.error e, c) => (Except.error e, c, [])
    | (Except.ok tr, c) =>
      let r := transPagesAux client target_style extra (i + 1) (done + 1) total rest
      ((r.1).map (fun tl => (pageLabel i, tr) :: tl), c + r.2.1,
        progressValue (done + 1) total :: r.2.2)

/-- The outer translation loop over the extracted files, threading the
global completed counter. -/
def transFilesAux {E : Type} (client : PyStr → Except E (Option PyStr))
    (target_style extra : PyStr) :
    Nat → Nat → List (PyStr × List PyStr) →
    Except E (List (PyStr × List (PyStr × PyStr))) × Nat × List ℚ
  | _, _, [] => (Except.ok [], 0, [])
  | done, total, (name, pages) :: rest =>
    let r1 := transPagesAux client target_style extra 1 done total pages
    match r1.1 with
    | Except.error e => (Except.error e, r1.2.1, r1.2.2)
    | Except.ok tl =>
      let r2 := transFilesAux client target_style extra (done + pages.length) total rest
      ((r2.1).map (fun fl => (name, tl) :: fl), r1.2.1 + r2.2.1,
        r1.2.2 ++ r2.2.2)

/-- Total page count of the extraction cache. -/
def totalPages (cache : List (PyStr × List PyStr)) : Nat :=
  (cache.map (fun fp => fp.2.length)).sum

/-- p occurs verbatim as a contiguous segment of l. -/
def occursIn (p l : PyStr) : Prop := ∃ a b, l = a ++ p ++ b

/-- The run triggered by the button in src/app.py: extract every upload,
then translate page by page with progress reporting, then assemble the
document; any extraction or translation failure aborts the whole run with
no document produced.  Returns the run outcome, the number of remote calls
made and the reported progress values. -/
def runPipeline {E β : Type} (getPages : β → Except E (List (Option PyStr)))
    (client : PyStr → Except E (Option PyStr)) (target_style extra : PyStr)
    (uploads : List (PyStr × β)) : Except E (List DocElem) × Nat × List ℚ :=
  match extractAll getPages uploads with
  | Except.error e => (Except.error e, 0, [])
  | Except.ok cache =>
    let r := transFilesAux client target_style extra 0 (totalPages cache) cache
    match r.1 with
    | Except.error e => (Except.error e, r.2.1, r.2.2)
    | Except.ok results => (Except.ok (build_docx results), r.2.1, r.2.2)

/-- No two adjacent characters are both horizontal whitespace. -/
def noHTRun : PyStr → Bool
  | c1 :: c2 :: rest => (!(isHT c1 && isHT c2)) && noHTRun (c2 :: rest)
  | _ => true

/-- No three consecutive characters are all line feeds. -/
def noTripleNL : PyStr → Bool
  | c1 :: c2 :: c3 :: rest =>
    (!((c1 == '\n') && (c2 == '\n') && (c3 == '\n'))) && noTripleNL (c2 :: c3 :: rest)
  | _ => true

/-- Number of leading line feeds. -/
def leadNL (l : PyStr) : Nat := (l.takeWhile (fun c => c == '\n')).length

/-- The first character, when there is one, is not horizontal whitespace. -/
def headNotHT : PyStr → Bool
  | [] => true
  | c :: _ => !isHT c

/-! ## Basic lemmas about the Python string helpers -/

theorem dropWhile_self_or_lt (p : Char → Bool) (l : PyStr) :
    l.dropWhile p = l ∨ (l.dropWhile p).length < l.length := by
  cases l with
  | nil => left; rfl
  | cons c t =>
    by_cases h : p c
    · right
      have hle := (List.dropWhile_sublist (l := t) p).length_le
      simp [List.dropWhile_cons, h]
      omega
    · left
      simp [List.dropWhile_cons, h]

theorem dropWhile_head_false (p : Char → Bool) (c : Char) (t : PyStr)
    (h : List.dropWhile p (c :: t) = c :: t) : p c = false := by
  by_contra hc
  have hpc : p c = true := by
    cases hpc : p c
    · exact absurd hpc hc
    · rfl
  have hle := (List.dropWhile_sublist (l := t) p).length_le
  have : List.dropWhile p (c :: t) = List.dropWhile p t := by
    simp [List.dropWhile_cons, hpc]
  rw [this] at h
  have := congrArg List.length h
  simp at this
  omega

theorem lstrip_length_le (l : PyStr) : (lstrip l).length ≤ l.length :=
  (List.dropWhile_sublist (l := l) isPySpace).length_le

theorem rstrip_length_le (l : PyStr) : (rstrip l).length ≤ l.length := by
  have := (List.dropWhile_sublist (l := l.reverse) isPySpace).length_le
  simp only [rstrip, List.length_reverse] at *
  omega

theorem lstrip_of_pyStrip_eq {l : PyStr} (h : pyStrip l = l) : lstrip l = l := by
  have h1 : (pyStrip l).length = l.length := by rw [h]
  have h2 := rstrip_length_le (lstrip l)
  have h3 := lstrip_length_le l
  have hlen : (lstrip l).length = l.length := by
    simp only [pyStrip] at h1; omega
  rcases dropWhile_self_or_lt isPySpace l with heq | hlt
  · exact heq
  · exact absurd hlen (by simp only [lstrip]; omega)

theorem rstrip_of_pyStrip_eq {l : PyStr} (h : pyStrip l = l) : rstrip l = l := by
  have := lstrip_of_pyStrip_eq h
  simpa [pyStrip, this] using h

theorem lstrip_cons_neg {c : Char} (t : PyStr) (h : isPySpace c = false) :
    lstrip (c :: t) = c :: t := by
  simp [lstrip, List.dropWhile_cons, h]

theorem rstrip_append_space {c : Char} (x : PyStr) (h : isPySpace c = true) :
    rstrip (x ++ [c]) = rstrip x := by
  simp [rstrip, List.dropWhile_cons, h]

theorem rstrip_append_of_rstrip_eq (a : PyStr) {hb : PyStr} (hne : hb ≠ [])
    (h : rstrip hb = hb) : rstrip (a ++ hb) = a ++ hb := by
  have hrev : List.dropWhile isPySpace hb.reverse = hb.reverse := by
    have := congrArg List.reverse h
    simpa [rstrip] using this
  obtain ⟨c, t, hct⟩ : ∃ c t, hb.reverse = c :: t := by
    cases hr : hb.reverse with
    | nil => exact absurd (by simpa using congrArg List.reverse hr) hne
    | cons c t => exact ⟨c, t, rfl⟩
  have hc : isPySpace c = false := dropWhile_head_false _ _ _ (hct ▸ hrev)
  have hfix : List.dropWhile isPySpace (a ++ hb).reverse = (a ++ hb).reverse := by
    rw [List.reverse_append, hct, List.cons_append]
    simp [List.dropWhile_cons, hc]
  show (List.dropWhile isPySpace (a ++ hb).reverse).reverse = a ++ hb
  rw [hfix, List.reverse_reverse]

/-! ## C8: the style enumeration -/

/-- C8, counterexample: the options list of src/app.py is not the list the
claim states, because the third option reads "Warm / chassidus-tone (still
accurate)" rather than "Warm tone (still accurate)". -/
theorem claim_C8_counterexample :
    styleOptions ≠
      [("Clear and straightforward").toList,
       ("More literal / closer to Hebrew").toList,
       ("Warm tone (still accurate)").toList,
       ("Academic / formal").toList] := by decide

/-- C8, amended: the translation style enumeration is fixed at exactly four
values, "Clear and straightforward", "More literal / closer to Hebrew",
"Warm / chassidus-tone (still accurate)" and "Academic / formal", and the
selectbox hands the caller exactly one member of that list. -/
theorem claim_C8_styles_fixed :
    styleOptions =
      [("Clear and straightforward").toList,
       ("More literal / closer to Hebrew").toList,
       ("Warm / chassidus-tone (still accurate)").toList,
       ("Academic / formal").toList] ∧
    styleOptions.length = 4 ∧
    (∀ i : Fin styleOptions.length, selectStyle i ∈ styleOptions) := by
  refine ⟨rfl, rfl, fun i => ?_⟩
  exact styleOptions.get_mem i.1 i.2

/-! ## C1 and C10: the placeholder branch and the translator guard -/

/-- C1: a page whose stripped extracted text has fewer than ten characters
gets exactly the fixed placeholder, which is the bracketed no-text line, a
blank line, and the OCR sentence, and no translation-service call is made;
a page at or above the threshold causes exactly one service call. -/
theorem claim_C1_placeholder_branch {E : Type}
    (client : PyStr → Except E (Option PyStr)) (target_style extra heb : PyStr) :
    ((pyStrip heb).length < 10 →
      processPage client target_style extra heb = (Except.ok placeholderText, 0) ∧
      placeholderText = placeholderLine1 ++ '\n' :: '\n' :: placeholderLine2) ∧
    (10 ≤ (pyStrip heb).length →
      (processPage client target_style extra heb).2 = 1) := by
  constructor
  · intro h
    exact ⟨by simp [processPage, h], by decide⟩
  · intro h
    have hne : (pyStrip heb).isEmpty = false := by
      cases he : pyStrip heb with
      | nil => rw [he] at h; simp at h
      | cons c t => simp
    simp [processPage, translate_text, hne, Nat.not_lt.mpr h]

/-- C1, witness: a concrete empty page takes the placeholder branch with
zero calls, and a concrete eleven-character page makes exactly one call. -/
theorem claim_C1_witness :
    processPage (E := Unit) (fun _ => Except.ok none) [] [] [] =
      (Except.ok placeholderText, 0) ∧
    (processPage (E := Unit) (fun _ => Except.ok none) [] []
      (("aaaaaaaaaaa").toList)).2 = 1 := by
  constructor
  · exact ((claim_C1_placeholder_branch _ _ _ _).1 (by decide)).1
  · exact (claim_C1_placeholder_branch _ _ _ _).2 (by decide)

/-- C10: translate_text itself only guards against empty stripped input, in
which case it answers the empty string with no remote call; any non-empty
stripped input, including stripped lengths one through nine, makes exactly
one remote call, and it is the orchestrator branch that substitutes the
placeholder below the ten-character threshold before translate_text is ever
invoked, with zero calls. -/
theorem claim_C10_translator_guard {E : Type}
    (client : PyStr → Except E (Option PyStr)) (heb target_style extra : PyStr) :
    (pyStrip heb = [] →
      translate_text client heb target_style extra = (Except.ok [], 0)) ∧
    (pyStrip heb ≠ [] →
      (translate_text client heb target_style extra).2 = 1) ∧
    ((pyStrip heb).length < 10 →
      (processPage client target_style extra heb).2 = 0) := by
  refine ⟨fun h => ?_, fun h => ?_, fun h => ?_⟩
  · simp [translate_text, h]
  · simp [translate_text, List.isEmpty_iff, h]
  · simp [processPage, h]

/-- C10, witness: concretely, whitespace-only input is answered without a
call, while the three-character input abc still makes one remote call. -/
theorem claim_C10_witness :
    (translate_text (E := Unit) (fun _ => Except.ok none) ((" ").toList) [] [] =
      (Except.ok [], 0)) ∧
    (translate_text (E := Unit) (fun _ => Except.ok none) (("abc").toList) [] []).2 = 1 := by
  constructor
  · exact (claim_C10_translator_guard _ _ _ _).1 (by decide)
  · exact (claim_C10_translator_guard _ _ _ _).2.1 (by decide)

/-! ## C3: the page extractor -/

/-- C3: when the PDF engine yields the raw page texts, the extractor
returns exactly one entry per page in the same order, each entry being the
normalized text of that page, and a page with no extractable text becomes
the empty string. -/
theorem claim_C3_extractor_pagewise {E β : Type}
    (getPages : β → Except E (List (Option PyStr))) (pdf_bytes : β)
    (raw : List (Option PyStr)) (h : getPages pdf_bytes = Except.ok raw) :
    ∃ out, extract_pdf_pages_text getPages pdf_bytes = Except.ok out ∧
      out.length = raw.length ∧
      (∀ i, i < raw.length →
        out.getD i [] = normalize_whitespace ((raw.getD i none).getD [])) ∧
      (∀ i, i < raw.length →
        (raw.getD i none = none ∨ raw.getD i none = some []) →
        out.getD i [] = []) := by
  refine ⟨raw.map (fun o => normalize_whitespace (o.getD [])), ?_, by simp, ?_, ?_⟩
  · simp [extract_pdf_pages_text, h, Except.map]
  · intro i hi
    rw [List.getD_eq_getElem?_getD, List.getElem?_map, List.getD_eq_getElem?_getD,
      List.getElem?_eq_getElem hi]
    rfl
  · intro i hi hcase
    rw [List.getD_eq_getElem?_getD, List.getElem?_map, List.getElem?_eq_getElem hi]
    rw [List.getD_eq_getElem?_getD, List.getElem?_eq_getElem hi] at hcase
    rcases hcase with hnone | hempty
    · simp only [Option.getD_some] at hnone ⊢
      rw [hnone]
      rfl
    · simp only [Option.getD_some] at hempty ⊢
      rw [hempty]
      rfl

/-- C3, witness: a concrete two-page document, one page with text and one
with none, extracts to two entries with the empty page normalized to the
empty string. -/
theorem claim_C3_witness :
    ∃ out, extract_pdf_pages_text (E := Unit) (β := Unit)
        (fun _ => Except.ok [some ((" x ").toList), none]) () = Except.ok out ∧
      out.length = ([some ((" x ").toList), none] : List (Option PyStr)).length ∧
      (∀ i, i < ([some ((" x ").toList), none] : List (Option PyStr)).length →
        out.getD i [] = normalize_whitespace
          ((([some ((" x ").toList), none] : List (Option PyStr)).getD i none).getD [])) ∧
      (∀ i, i < ([some ((" x ").toList), none] : List (Option PyStr)).length →
        ((([some ((" x ").toList), none] : List (Option PyStr)).getD i none = none ∨
          ([some ((" x ").toList), none] : List (Option PyStr)).getD i none = some []) →
        out.getD i [] = [])) :=
  claim_C3_extractor_pagewise _ () _ rfl

/-! ## C7: the prompt sent to the translation service -/

theorem pyStrip_sandwich {x sp : Char} (hx : isPySpace x = false)
    (hsp : isPySpace sp = true) (mid : PyStr) {hb : PyStr} (hbne : hb ≠ [])
    (hrs : rstrip hb = hb) :
    pyStrip ((x :: mid) ++ hb ++ [sp]) = (x :: mid) ++ hb := by
  unfold pyStrip
  have h1 : lstrip (((x :: mid) ++ hb) ++ [sp]) = ((x :: mid) ++ hb) ++ [sp] := by
    simp only [List.cons_append, List.append_assoc]
    exact lstrip_cons_neg _ hx
  rw [h1, rstrip_append_space _ hsp]
  exact rstrip_append_of_rstrip_eq _ hbne hrs

/-- C7: for a normalized non-empty page text, the prompt built for the
translation service contains the source text verbatim, contains the selected
style label, and contains the extra-instructions string, with the literal
None marker substituted when that string is empty. -/
theorem claim_C7_prompt_contents (target_style extra heb : PyStr)
    (hstrip : pyStrip heb = heb) (hne : heb ≠ []) :
    occursIn heb (buildPrompt target_style extra heb) ∧
    occursIn target_style (buildPrompt target_style extra heb) ∧
    occursIn (if extra = [] then ("None").toList else extra)
      (buildPrompt target_style extra heb) := by
  have hrs := rstrip_of_pyStrip_eq hstrip
  have key : buildPrompt target_style extra heb =
      ('Y' :: (promptPartA.tail ++ target_style ++ promptPartB ++
        (if extra.isEmpty then ("None").toList else extra) ++ promptPartC)) ++ heb := by
    show pyStrip (('Y' :: (promptPartA.tail ++ target_style ++ promptPartB ++
        (if extra.isEmpty then ("None").toList else extra) ++ promptPartC)) ++
        heb ++ ['\n']) = _
    exact pyStrip_sandwich (by decide) (by decide) _ hne hrs
  refine ⟨⟨'Y' :: (promptPartA.tail ++ target_style ++ promptPartB ++
      (if extra.isEmpty then ("None").toList else extra) ++ promptPartC), [],
      by rw [key]; simp⟩, ?_, ?_⟩
  · refine ⟨'Y' :: promptPartA.tail,
      promptPartB ++ (if extra.isEmpty then ("None").toList else extra) ++
        promptPartC ++ heb, ?_⟩
    rw [key]
    simp [List.append_assoc]
  · by_cases hext : extra = []
    · subst hext
      refine ⟨'Y' :: (promptPartA.tail ++ target_style ++ promptPartB),
        promptPartC ++ heb, ?_⟩
      rw [key]
      simp [List.append_assoc]
    · have hie : extra.isEmpty = false := by
        simpa [List.isEmpty_iff] using hext
      refine ⟨'Y' :: (promptPartA.tail ++ target_style ++ promptPartB),
        promptPartC ++ heb, ?_⟩
      rw [key]
      simp [hie, hext, List.append_assoc]

/-- C7, witness: a concrete ten-character normalized page text, a concrete
style label and empty extra instructions. -/
theorem claim_C7_witness :
    occursIn (("abcdefghij").toList)
      (buildPrompt (("S").toList) [] (("abcdefghij").toList)) ∧
    occursIn (("S").toList)
      (buildPrompt (("S").toList) [] (("abcdefghij").toList)) ∧
    occursIn (if ([] : PyStr) = [] then ("None").toList else ([] : PyStr))
      (buildPrompt (("S").toList) [] (("abcdefghij").toList)) :=
  claim_C7_prompt_contents _ _ _ (by decide) (by decide)

/-! ## C2: the document assembler -/

theorem consHead_ne_nil (c : Char) (xs : List PyStr) : consHead c xs ≠ [] := by
  cases xs <;> simp [consHead]

theorem pySplit2NL_ne_nil : ∀ s, pySplit2NL s ≠ []
  | [] => by simp [pySplit2NL]
  | [c] => by simp [pySplit2NL]
  | c1 :: c2 :: rest => by
    by_cases h : c1 = '\n' ∧ c2 = '\n'
    · simp [pySplit2NL, h]
    · simp only [pySplit2NL, if_neg h]
      exact consHead_ne_nil _ _

theorem specSplitNL_ne_nil : ∀ s, specSplitNL s ≠ []
  | [] => by simp [specSplitNL]
  | [c] => by simp [specSplitNL]
  | c1 :: c2 :: rest => by
    by_cases h : c1 = '\n' ∧ c2 = '\n'
    · simp [specSplitNL, h]
    · simp only [specSplitNL, if_neg h]
      exact consHead_ne_nil _ _

theorem specSplitNL_nil : specSplitNL [] = [[]] := by simp [specSplitNL]

theorem specSplitNL_single (c : Char) : specSplitNL [c] = [[c]] := by
  simp [specSplitNL]

theorem pyStrip_cons_space {c : Char} (h : isPySpace c = true) (l : PyStr) :
    pyStrip (c :: l) = pyStrip l := by
  simp [pyStrip, lstrip, List.dropWhile_cons, h]

theorem segsQ_cons (h : PyStr) (t : List PyStr) :
    segsQ (h :: t) =
      if (pyStrip h).isEmpty then segsQ t else pyStrip h :: segsQ t := by
  cases hh : (pyStrip h).isEmpty <;> simp [segsQ, hh]

theorem segsQ_consHead_space {c : Char} (hc : isPySpace c = true) :
    ∀ xs : List PyStr, segsQ (consHead c xs) = segsQ xs
  | [] => by
    have h1 : pyStrip [c] = pyStrip [] := pyStrip_cons_space hc []
    simp [consHead, segsQ_cons, h1]
    rfl
  | h :: t => by
    simp only [consHead, segsQ_cons, pyStrip_cons_space hc]

theorem segsQ_eq_of_headTail {x y : List PyStr} (hx : x ≠ []) (hy : y ≠ [])
    (hh : x.headI = y.headI) (ht : segsQ x.tail = segsQ y.tail) :
    segsQ x = segsQ y := by
  obtain ⟨a, as, rfl⟩ := List.exists_cons_of_ne_nil hx
  obtain ⟨b, bs, rfl⟩ := List.exists_cons_of_ne_nil hy
  simp only [List.headI, List.tail] at hh ht
  subst hh
  rw [segsQ_cons, segsQ_cons, ht]

theorem specSplitNL_nl_invariant :
    ∀ m u, u.length ≤ m →
      (segsQ (specSplitNL ('\n' :: u)) = segsQ (specSplitNL u) ∧
       segsQ (specSplitNL (dropNl u)) = segsQ (specSplitNL u)) := by
  intro m
  induction m with
  | zero =>
    intro u hu
    have : u = [] := List.length_eq_zero.mp (Nat.le_zero.mp hu)
    subst this
    refine ⟨?_, ?_⟩
    · rw [specSplitNL_single, specSplitNL_nil]; decide
    · simp [dropNl]
  | succ n ih =>
    intro u hu
    cases u with
    | nil =>
      refine ⟨?_, ?_⟩
      · rw [specSplitNL_single, specSplitNL_nil]; decide
      · simp [dropNl]
    | cons c v =>
      have hv : v.length ≤ n := by
        simp only [List.length_cons] at hu
        omega
      constructor
      · by_cases hc : c = '\n'
        · subst hc
          have h1 : specSplitNL ('\n' :: '\n' :: v) = [] :: specSplitNL (dropNl v) := by
            simp [specSplitNL]
          rw [h1, segsQ_cons]
          have h2 : (pyStrip ([] : PyStr)).isEmpty = true := by decide
          rw [if_pos h2, (ih v hv).2, ← (ih v hv).1]
        · have h1 : specSplitNL ('\n' :: c :: v) = consHead '\n' (specSplitNL (c :: v)) := by
            simp [specSplitNL, hc]
          rw [h1, segsQ_consHead_space (by decide)]
      · by_cases hc : c = '\n'
        · subst hc
          have h1 : dropNl ('\n' :: v) = dropNl v := by
            simp [dropNl, List.dropWhile_cons]
          rw [h1, (ih v hv).2, ← (ih v hv).1]
        · have h1 : dropNl (c :: v) = c :: v := by
            simp [dropNl, List.dropWhile_cons, hc]
          rw [h1]

theorem split_headTail :
    ∀ m s, s.length ≤ m →
      ((pySplit2NL s).headI = (specSplitNL s).headI ∧
       segsQ (pySplit2NL s).tail = segsQ (specSplitNL s).tail) := by
  intro m
  induction m with
  | zero =>
    intro s hs
    have : s = [] := List.length_eq_zero.mp (Nat.le_zero.mp hs)
    subst this
    rw [specSplitNL_nil]
    exact ⟨rfl, rfl⟩
  | succ n ih =>
    intro s hs
    cases s with
    | nil =>
      rw [specSplitNL_nil]
      exact ⟨rfl, rfl⟩
    | cons c1 rest1 =>
      cases rest1 with
      | nil =>
        rw [specSplitNL_single]
        exact ⟨rfl, rfl⟩
      | cons c2 rest =>
        have hrest : rest.length ≤ n := by
          simp only [List.length_cons] at hs
          omega
        have hrest1 : (c2 :: rest).length ≤ n := by
          simp only [List.length_cons] at hs ⊢
          omega
        by_cases h : c1 = '\n' ∧ c2 = '\n'
        · have h1 : pySplit2NL (c1 :: c2 :: rest) = [] :: pySplit2NL rest := by
            simp [pySplit2NL, h]
          have h2 : specSplitNL (c1 :: c2 :: rest) = [] :: specSplitNL (dropNl rest) := by
            simp [specSplitNL, h]
          rw [h1, h2]
          refine ⟨rfl, ?_⟩
          simp only [List.tail]
          have hfull : segsQ (pySplit2NL rest) = segsQ (specSplitNL rest) :=
            segsQ_eq_of_headTail (pySplit2NL_ne_nil rest) (specSplitNL_ne_nil rest)
              (ih rest hrest).1 (ih rest hrest).2
          rw [hfull, (specSplitNL_nl_invariant n rest hrest).2]
        · have h1 : pySplit2NL (c1 :: c2 :: rest) = consHead c1 (pySplit2NL (c2 :: rest)) := by
            simp [pySplit2NL, h]
          have h2 : specSplitNL (c1 :: c2 :: rest) = consHead c1 (specSplitNL (c2 :: rest)) := by
            simp [specSplitNL, h]
          obtain ⟨a, as, hae⟩ := List.exists_cons_of_ne_nil (pySplit2NL_ne_nil (c2 :: rest))
          obtain ⟨b, bs, hbe⟩ := List.exists_cons_of_ne_nil (specSplitNL_ne_nil (c2 :: rest))
          have hih := ih (c2 :: rest) hrest1
          rw [hae, hbe] at hih
          simp only [List.headI, List.tail] at hih
          rw [h1, h2, hae, hbe]
          simp only [consHead, List.headI, List.tail]
          exact ⟨by rw [hih.1], hih.2⟩

theorem docParagraphs_eq_specParagraphs (s : PyStr) :
    docParagraphs s = specParagraphs s :=
  segsQ_eq_of_headTail (pySplit2NL_ne_nil s) (specSplitNL_ne_nil s)
    (split_headTail s.length s le_rfl).1 (split_headTail s.length s le_rfl).2

/-- C2: the assembler emits, in the given order, one level-1 heading per
file, one level-2 heading per page, one paragraph per non-empty trimmed
segment of the translated text split on blank-line boundaries of two or
more line feeds with empty segments dropped, and a page break after each
file: the element list of build_docx coincides with the spec-modelled
assembler, and in particular the round-trip example of the spec holds. -/
theorem claim_C2_assembler_matches_spec
    (items : List (PyStr × List (PyStr × PyStr))) :
    build_docx items = specBuild_docx items ∧
    build_docx
      [(("F1").toList, [(("Page 1").toList, ("A").toList),
                        (("Page 2").toList, ("B").toList)]),
       (("F2").toList, [(("Page 1").toList, ("C").toList)])] =
      [DocElem.heading 1 (("F1").toList),
       DocElem.heading 2 (("Page 1").toList), DocElem.para (("A").toList),
       DocElem.heading 2 (("Page 2").toList), DocElem.para (("B").toList),
       DocElem.pageBreak,
       DocElem.heading 1 (("F2").toList),
       DocElem.heading 2 (("Page 1").toList), DocElem.para (("C").toList),
       DocElem.pageBreak] := by
  constructor
  · simp only [build_docx, specBuild_docx, docParagraphs_eq_specParagraphs]
  · decide

/-! ## C4 and C5: lemmas about the whitespace normalizer -/

theorem mem_replCR {c : Char} {l : PyStr} (h : c ∈ replCR l) : c ≠ '\r' := by
  simp only [replCR, List.mem_map] at h
  obtain ⟨x, _, hx⟩ := h
  by_cases hxr : x = '\r'
  · rw [← hx, if_pos hxr]; decide
  · rw [← hx, if_neg hxr]; exact hxr

theorem chtGo_mem {c : Char} :
    ∀ (b : Bool) (l : PyStr), c ∈ chtGo b l → c ∈ l ∨ c = ' '
  | _, [], h => by simp [chtGo] at h
  | b, x :: rest, h => by
    by_cases hx : isHT x
    · cases b with
      | true =>
        rw [chtGo, if_pos hx] at h
        rcases chtGo_mem true rest h with h1 | h1
        · exact Or.inl (List.mem_cons_of_mem _ h1)
        · exact Or.inr h1
      | false =>
        rw [chtGo, if_pos hx] at h
        rcases List.mem_cons.mp h with h1 | h1
        · exact Or.inr h1
        · rcases chtGo_mem true rest h1 with h2 | h2
          · exact Or.inl (List.mem_cons_of_mem _ h2)
          · exact Or.inr h2
    · rw [chtGo, if_neg hx] at h
      rcases List.mem_cons.mp h with h1 | h1
      · exact Or.inl (h1 ▸ List.mem_cons_self _ _)
      · rcases chtGo_mem false rest h1 with h2 | h2
        · exact Or.inl (List.mem_cons_of_mem _ h2)
        · exact Or.inr h2

theorem cnlGo_mem {c : Char} :
    ∀ (k : Nat) (l : PyStr), c ∈ cnlGo k l → c ∈ l
  | _, [], h => by simp [cnlGo] at h
  | k, x :: rest, h => by
    by_cases hx : x = '\n'
    · by_cases hk : k < 2
      · rw [cnlGo, if_pos hx, if_pos hk] at h
        rcases List.mem_cons.mp h with h1 | h1
        · exact List.mem_cons.mpr (Or.inl (h1.trans hx.symm))
        · exact List.mem_cons_of_mem _ (cnlGo_mem (k + 1) rest h1)
      · rw [cnlGo, if_pos hx, if_neg hk] at h
        exact List.mem_cons_of_mem _ (cnlGo_mem k rest h)
    · rw [cnlGo, if_neg hx] at h
      rcases List.mem_cons.mp h with h1 | h1
      · exact h1 ▸ List.mem_cons_self _ _
      · exact List.mem_cons_of_mem _ (cnlGo_mem 0 rest h1)

theorem rstrip_decomp (l : PyStr) :
    rstrip l ++ (l.reverse.takeWhile isPySpace).reverse = l := by
  rw [rstrip, ← List.reverse_append, List.takeWhile_append_dropWhile,
    List.reverse_reverse]

theorem pyStrip_decomp (l : PyStr) :
    ∃ a b, a ++ (pyStrip l ++ b) = l := by
  refine ⟨l.takeWhile isPySpace, ((lstrip l).reverse.takeWhile isPySpace).reverse, ?_⟩
  rw [pyStrip, rstrip_decomp (lstrip l), lstrip, List.takeWhile_append_dropWhile]

theorem mem_pyStrip {c : Char} {l : PyStr} (h : c ∈ pyStrip l) : c ∈ l := by
  obtain ⟨a, b, hab⟩ := pyStrip_decomp l
  rw [← hab]
  exact List.mem_append.mpr (Or.inr (List.mem_append.mpr (Or.inl h)))

theorem noHTRun_of_cons {x : Char} {xs : PyStr} (h : noHTRun (x :: xs) = true) :
    noHTRun xs = true := by
  cases xs with
  | nil => rfl
  | cons y ys =>
    rw [noHTRun] at h
    exact (Bool.and_eq_true_iff.mp h).2

theorem noHTRun_cons {x : Char} {xs : PyStr} (h : noHTRun xs = true)
    (hpair : isHT x = false ∨ headNotHT xs = true) : noHTRun (x :: xs) = true := by
  cases xs with
  | nil => rfl
  | cons y ys =>
    rw [noHTRun, Bool.and_eq_true_iff]
    refine ⟨?_, h⟩
    rcases hpair with h1 | h1
    · simp [h1]
    · rw [headNotHT] at h1
      simp only [Bool.not_eq_true'] at h1
      simp [h1]

theorem noHTRun_head_of_ht {c : Char} {rest : PyStr}
    (h : noHTRun (c :: rest) = true) (hc : isHT c = true) :
    headNotHT rest = true := by
  cases rest with
  | nil => rfl
  | cons y ys =>
    rw [noHTRun, Bool.and_eq_true_iff] at h
    rw [headNotHT]
    have := h.1
    simp only [hc, Bool.true_and, Bool.not_eq_true'] at this
    simp [this]

theorem chtGo_true_headNotHT : ∀ l : PyStr, headNotHT (chtGo true l) = true
  | [] => rfl
  | c :: rest => by
    by_cases hc : isHT c
    · rw [chtGo, if_pos hc]
      exact chtGo_true_headNotHT rest
    · rw [chtGo, if_neg hc, headNotHT]
      simp only [Bool.not_eq_true']
      simp [hc]

theorem chtGo_noHTRun : ∀ (l : PyStr) (b : Bool), noHTRun (chtGo b l) = true
  | [], _ => rfl
  | c :: rest, b => by
    by_cases hc : isHT c
    · cases b with
      | true =>
        rw [chtGo, if_pos hc]
        exact chtGo_noHTRun rest true
      | false =>
        rw [chtGo, if_pos hc]
        exact noHTRun_cons (chtGo_noHTRun rest true)
          (Or.inr (chtGo_true_headNotHT rest))
    · rw [chtGo, if_neg hc]
      exact noHTRun_cons (chtGo_noHTRun rest false)
        (Or.inl (Bool.not_eq_true _ ▸ (by simpa using hc)))

theorem cnlGo_zero_headNotHT {l : PyStr} (h : headNotHT l = true) :
    headNotHT (cnlGo 0 l) = true := by
  cases l with
  | nil => rfl
  | cons c rest =>
    by_cases hc : c = '\n'
    · rw [cnlGo, if_pos hc, if_pos (by omega : (0 : Nat) < 2), headNotHT]
      decide
    · rw [cnlGo, if_neg hc, headNotHT]
      rw [headNotHT] at h
      exact h

theorem cnlGo_noHTRun : ∀ (l : PyStr) (k : Nat), noHTRun l = true →
    noHTRun (cnlGo k l) = true
  | [], _, _ => rfl
  | c :: rest, k, h => by
    by_cases hc : c = '\n'
    · by_cases hk : k < 2
      · rw [cnlGo, if_pos hc, if_pos hk]
        refine noHTRun_cons (cnlGo_noHTRun rest (k + 1) (noHTRun_of_cons h)) (Or.inl ?_)
        decide
      · rw [cnlGo, if_pos hc, if_neg hk]
        exact cnlGo_noHTRun rest k (noHTRun_of_cons h)
    · rw [cnlGo, if_neg hc]
      by_cases hht : isHT c
      · refine noHTRun_cons (cnlGo_noHTRun rest 0 (noHTRun_of_cons h)) (Or.inr ?_)
        exact cnlGo_zero_headNotHT (noHTRun_head_of_ht h hht)
      · exact noHTRun_cons (cnlGo_noHTRun rest 0 (noHTRun_of_cons h))
          (Or.inl (by simpa using hht))

theorem noHTRun_append_right {a b : PyStr} (h : noHTRun (a ++ b) = true) :
    noHTRun b = true := by
  induction a with
  | nil => exact h
  | cons x xs ih =>
    rw [List.cons_append] at h
    exact ih (noHTRun_of_cons h)

theorem noHTRun_append_left {a b : PyStr} (h : noHTRun (a ++ b) = true) :
    noHTRun a = true := by
  induction a with
  | nil => rfl
  | cons x xs ih =>
    cases xs with
    | nil => rfl
    | cons y ys =>
      rw [List.cons_append, List.cons_append] at h
      rw [noHTRun] at h ⊢
      rw [Bool.and_eq_true_iff] at h ⊢
      exact ⟨h.1, ih (by rw [List.cons_append]; exact h.2)⟩

theorem noHTRun_pyStrip {l : PyStr} (h : noHTRun l = true) :
    noHTRun (pyStrip l) = true := by
  obtain ⟨a, b, hab⟩ := pyStrip_decomp l
  rw [← hab] at h
  exact noHTRun_append_left (noHTRun_append_right h)

theorem chtGo_no_tab : ∀ (b : Bool) (l : PyStr), '\t' ∉ chtGo b l
  | _, [] => by simp [chtGo]
  | b, c :: rest => by
    by_cases hc : isHT c
    · cases b with
      | true =>
        rw [chtGo, if_pos hc]
        exact chtGo_no_tab true rest
      | false =>
        rw [chtGo, if_pos hc]
        intro hmem
        rcases List.mem_cons.mp hmem with h1 | h1
        · exact absurd h1 (by decide)
        · exact chtGo_no_tab true rest h1
    · rw [chtGo, if_neg hc]
      intro hmem
      rcases List.mem_cons.mp hmem with h1 | h1
      · rw [← h1] at hc
        exact hc (by decide)
      · exact chtGo_no_tab false rest h1

theorem noTripleNL_of_cons {x : Char} {xs : PyStr}
    (h : noTripleNL (x :: xs) = true) : noTripleNL xs = true := by
  cases xs with
  | nil => rfl
  | cons y ys =>
    cases ys with
    | nil => rfl
    | cons z zs =>
      rw [noTripleNL] at h
      exact (Bool.and_eq_true_iff.mp h).2

theorem leadNL_cons_nl (xs : PyStr) : leadNL ('\n' :: xs) = leadNL xs + 1 := by
  simp [leadNL, List.takeWhile_cons]

theorem leadNL_cons_not_nl {c : Char} (hc : c ≠ '\n') (xs : PyStr) :
    leadNL (c :: xs) = 0 := by
  simp [leadNL, List.takeWhile_cons, hc]

theorem noTripleNL_cons_not_nl {c : Char} (hc : c ≠ '\n') {xs : PyStr}
    (h : noTripleNL xs = true) : noTripleNL (c :: xs) = true := by
  cases xs with
  | nil => rfl
  | cons y ys =>
    cases ys with
    | nil => rfl
    | cons z zs =>
      rw [noTripleNL, Bool.and_eq_true_iff]
      refine ⟨?_, h⟩
      simp [hc]

theorem noTripleNL_cons_nl {xs : PyStr} (h : noTripleNL xs = true)
    (hlead : leadNL xs ≤ 1) : noTripleNL ('\n' :: xs) = true := by
  cases xs with
  | nil => rfl
  | cons y ys =>
    cases ys with
    | nil => rfl
    | cons z zs =>
      rw [noTripleNL, Bool.and_eq_true_iff]
      refine ⟨?_, h⟩
      by_cases hy : y = '\n'
      · by_cases hz : z = '\n'
        · exfalso
          rw [hy, hz, leadNL_cons_nl, leadNL_cons_nl] at hlead
          omega
        · simp [hz]
      · simp [hy]

theorem noTripleNL_head_bound {xs : PyStr}
    (h : noTripleNL ('\n' :: xs) = true) : leadNL xs ≤ 1 := by
  cases xs with
  | nil => simp [leadNL]
  | cons y ys =>
    by_cases hy : y = '\n'
    · cases ys with
      | nil =>
        rw [hy, leadNL_cons_nl]
        simp [leadNL]
      | cons z zs =>
        by_cases hz : z = '\n'
        · exfalso
          rw [noTripleNL, hy, hz, Bool.and_eq_true_iff] at h
          simp at h
        · rw [hy, leadNL_cons_nl, leadNL_cons_not_nl hz]
    · rw [leadNL_cons_not_nl hy]
      omega

theorem cnlGo_noTriple : ∀ (l : PyStr) (k : Nat), k ≤ 2 →
    noTripleNL (cnlGo k l) = true ∧ leadNL (cnlGo k l) + k ≤ 2
  | [], k, hk => ⟨rfl, by simp [cnlGo, leadNL]; omega⟩
  | c :: rest, k, hk => by
    by_cases hc : c = '\n'
    · by_cases hlt : k < 2
      · rw [cnlGo, if_pos hc, if_pos hlt]
        have ih := cnlGo_noTriple rest (k + 1) (by omega)
        constructor
        · exact noTripleNL_cons_nl ih.1 (by omega)
        · rw [leadNL_cons_nl]
          omega
      · rw [cnlGo, if_pos hc, if_neg hlt]
        exact cnlGo_noTriple rest k hk
    · rw [cnlGo, if_neg hc]
      have ih := cnlGo_noTriple rest 0 (by omega)
      constructor
      · exact noTripleNL_cons_not_nl hc ih.1
      · rw [leadNL_cons_not_nl hc]
        omega

theorem noTripleNL_append_right {a b : PyStr} (h : noTripleNL (a ++ b) = true) :
    noTripleNL b = true := by
  induction a with
  | nil => exact h
  | cons x xs ih =>
    rw [List.cons_append] at h
    exact ih (noTripleNL_of_cons h)

theorem noTripleNL_append_left {a b : PyStr} (h : noTripleNL (a ++ b) = true) :
    noTripleNL a = true := by
  induction a with
  | nil => rfl
  | cons x xs ih =>
    cases xs with
    | nil => rfl
    | cons y ys =>
      cases ys with
      | nil => rfl
      | cons z zs =>
        rw [List.cons_append, List.cons_append, List.cons_append] at h
        rw [noTripleNL] at h ⊢
        rw [Bool.and_eq_true_iff] at h ⊢
        refine ⟨h.1, ?_⟩
        have := ih (by rw [List.cons_append, List.cons_append]; exact h.2)
        exact this

theorem noTripleNL_pyStrip {l : PyStr} (h : noTripleNL l = true) :
    noTripleNL (pyStrip l) = true := by
  obtain ⟨a, b, hab⟩ := pyStrip_decomp l
  rw [← hab] at h
  exact noTripleNL_append_left (noTripleNL_append_right h)

theorem dropWhile_first_false (p : Char → Bool) :
    ∀ (l : PyStr) (c : Char) (t : PyStr), l.dropWhile p = c :: t → p c = false
  | [], c, t, h => by simp [List.dropWhile] at h
  | a :: l', c, t, h => by
    by_cases ha : p a
    · rw [List.dropWhile_cons, if_pos ha] at h
      exact dropWhile_first_false p l' c t h
    · rw [List.dropWhile_cons, if_neg ha] at h
      injection h with h1 h2
      rw [← h1]
      simpa using ha

theorem dropWhile_idem (p : Char → Bool) (l : PyStr) :
    (l.dropWhile p).dropWhile p = l.dropWhile p := by
  cases hd : l.dropWhile p with
  | nil => rfl
  | cons c t =>
    have hc := dropWhile_first_false p l c t hd
    simp [List.dropWhile_cons, hc]

theorem rstrip_idem (l : PyStr) : rstrip (rstrip l) = rstrip l := by
  simp only [rstrip, List.reverse_reverse]
  rw [dropWhile_idem]

theorem lstrip_of_rstrip {m : PyStr} (h : lstrip m = m) :
    lstrip (rstrip m) = rstrip m := by
  cases hr : rstrip m with
  | nil => rfl
  | cons c t =>
    have hdec := rstrip_decomp m
    rw [hr] at hdec
    have hm : m = c :: (t ++ (m.reverse.takeWhile isPySpace).reverse) := hdec.symm
    rw [hm] at h
    have hc : isPySpace c = false := dropWhile_first_false isPySpace _ c _ h
    exact lstrip_cons_neg _ hc

theorem pyStrip_idem (l : PyStr) : pyStrip (pyStrip l) = pyStrip l := by
  simp only [pyStrip]
  have h : lstrip (lstrip l) = lstrip l := dropWhile_idem isPySpace l
  rw [lstrip_of_rstrip h, rstrip_idem]

theorem replCRLF_eq_self : ∀ {l : PyStr}, '\r' ∉ l → replCRLF l = l
  | [], _ => rfl
  | [c], _ => rfl
  | c1 :: c2 :: rest, h => by
    have h1 : c1 ≠ '\r' := by
      intro he
      exact h (by rw [← he]; exact List.mem_cons_self _ _)
    rw [replCRLF, if_neg (fun hand => h1 hand.1)]
    rw [replCRLF_eq_self (fun hm => h (List.mem_cons_of_mem _ hm))]

theorem replCR_eq_self : ∀ {l : PyStr}, '\r' ∉ l → replCR l = l
  | [], _ => rfl
  | c :: rest, h => by
    have hc : c ≠ '\r' := by
      intro he
      exact h (by rw [← he]; exact List.mem_cons_self _ _)
    have ih := replCR_eq_self (l := rest) (fun hm => h (List.mem_cons_of_mem _ hm))
    simp only [replCR, List.map_cons] at ih ⊢
    rw [if_neg hc, ih]

theorem chtGo_eq_self : ∀ l : PyStr, '\t' ∉ l → noHTRun l = true →
    chtGo false l = l ∧ (headNotHT l = true → chtGo true l = l)
  | [], _, _ => ⟨rfl, fun _ => rfl⟩
  | c :: rest, ht, hrun => by
    have ht' : '\t' ∉ rest := fun hm => ht (List.mem_cons_of_mem _ hm)
    have ih := chtGo_eq_self rest ht' (noHTRun_of_cons hrun)
    constructor
    · by_cases hc : isHT c
      · have hcsp : c = ' ' := by
          rw [isHT, Bool.or_eq_true] at hc
          rcases hc with h1 | h1
          · exact eq_of_beq h1
          · exact absurd (by rw [eq_of_beq h1]; exact List.mem_cons_self _ _) ht
        rw [chtGo, if_pos hc, if_neg (by simp : ¬false = true),
          ih.2 (noHTRun_head_of_ht hrun hc), hcsp]
      · rw [chtGo, if_neg hc, ih.1]
    · intro hh
      rw [headNotHT, Bool.not_eq_true'] at hh
      rw [chtGo, if_neg (by simp [hh]), ih.1]

theorem cnlGo_eq_self : ∀ l : PyStr, noTripleNL l = true →
    cnlGo 0 l = l ∧ (leadNL l ≤ 1 → cnlGo 1 l = l) ∧
      (leadNL l = 0 → ∀ k, cnlGo k l = l)
  | [], _ => ⟨rfl, fun _ => rfl, fun _ _ => rfl⟩
  | c :: rest, h => by
    have ih := cnlGo_eq_self rest (noTripleNL_of_cons h)
    refine ⟨?_, ?_, ?_⟩
    · by_cases hc : c = '\n'
      · subst hc
        rw [cnlGo, if_pos rfl, if_pos (by omega : (0 : Nat) < 2),
          ih.2.1 (noTripleNL_head_bound h)]
      · rw [cnlGo, if_neg hc, ih.1]
    · intro hlead
      by_cases hc : c = '\n'
      · subst hc
        rw [leadNL_cons_nl] at hlead
        rw [cnlGo, if_pos rfl, if_pos (by omega : (1 : Nat) < 2),
          ih.2.2 (by omega) 2]
      · rw [cnlGo, if_neg hc, ih.1]
    · intro hlead k
      by_cases hc : c = '\n'
      · exfalso
        subst hc
        rw [leadNL_cons_nl] at hlead
        omega
      · rw [cnlGo, if_neg hc, ih.1]

theorem normout_no_cr (t : PyStr) : '\r' ∉ normalize_whitespace t := by
  intro hm
  rw [normalize_whitespace] at hm
  have h4 := mem_pyStrip hm
  rw [collapseNL] at h4
  have h3 := cnlGo_mem 0 _ h4
  rw [collapseHT] at h3
  rcases chtGo_mem false _ h3 with h2 | h2
  · exact mem_replCR h2 rfl
  · exact absurd h2 (by decide)

theorem normout_no_tab (t : PyStr) : '\t' ∉ normalize_whitespace t := by
  intro hm
  rw [normalize_whitespace] at hm
  have h4 := mem_pyStrip hm
  rw [collapseNL] at h4
  have h3 := cnlGo_mem 0 _ h4
  rw [collapseHT] at h3
  exact chtGo_no_tab false _ h3

theorem normout_noHTRun (t : PyStr) :
    noHTRun (normalize_whitespace t) = true := by
  rw [normalize_whitespace]
  refine noHTRun_pyStrip ?_
  rw [collapseNL]
  refine cnlGo_noHTRun _ 0 ?_
  rw [collapseHT]
  exact chtGo_noHTRun _ false

theorem normout_noTripleNL (t : PyStr) :
    noTripleNL (normalize_whitespace t) = true := by
  rw [normalize_whitespace]
  refine noTripleNL_pyStrip ?_
  rw [collapseNL]
  exact (cnlGo_noTriple _ 0 (by omega)).1

theorem normout_stripped (t : PyStr) :
    pyStrip (normalize_whitespace t) = normalize_whitespace t := by
  rw [normalize_whitespace, pyStrip_idem]

/-- C4: the normalizer is idempotent: normalizing an already-normalized
string changes nothing. -/
theorem claim_C4_normalizer_idempotent (t : PyStr) :
    normalize_whitespace (normalize_whitespace t) = normalize_whitespace t := by
  conv_lhs => rw [normalize_whitespace]
  rw [replCRLF_eq_self (normout_no_cr t), replCR_eq_self (normout_no_cr t),
    collapseHT,
    (chtGo_eq_self _ (normout_no_tab t) (normout_noHTRun t)).1,
    collapseNL,
    (cnlGo_eq_self _ (normout_noTripleNL t)).1,
    normout_stripped t]

/-- C5: the normalizer output contains no carriage return, no tab, no two
adjacent horizontal-whitespace characters, no run of three or more line
feeds, is already stripped of leading and trailing whitespace, and the
empty string maps to the empty string; totality holds by construction. -/
theorem claim_C5_normalizer_output (t : PyStr) :
    '\r' ∉ normalize_whitespace t ∧
    '\t' ∉ normalize_whitespace t ∧
    noHTRun (normalize_whitespace t) = true ∧
    noTripleNL (normalize_whitespace t) = true ∧
    pyStrip (normalize_whitespace t) = normalize_whitespace t ∧
    normalize_whitespace [] = [] :=
  ⟨normout_no_cr t, normout_no_tab t, normout_noHTRun t,
   normout_noTripleNL t, normout_stripped t, rfl⟩

/-! ## C6 and C9: progress reporting and failure propagation -/

theorem processPage_calls_le_one {E : Type} (client : PyStr → Except E (Option PyStr))
    (target_style extra heb : PyStr) :
    (processPage client target_style extra heb).2 ≤ 1 := by
  by_cases h : (pyStrip heb).length < 10
  · simp [processPage, h]
  · rw [processPage, if_neg h, translate_text]
    by_cases he : (pyStrip heb).isEmpty
    · simp [he]
    · simp [he]

theorem transPagesAux_calls_le {E : Type} (client : PyStr → Except E (Option PyStr))
    (target_style extra : PyStr) :
    ∀ (pages : List PyStr) (i done total : Nat),
      (transPagesAux client target_style extra i done total pages).2.1 ≤ pages.length
  | [], _, _, _ => by simp [transPagesAux]
  | heb :: rest, i, done, total => by
    have hb := processPage_calls_le_one client target_style extra heb
    have hr := transPagesAux_calls_le client target_style extra rest (i + 1) (done + 1) total
    cases hp : processPage client target_style extra heb with
    | mk res c =>
      rw [hp] at hb
      simp only at hb
      cases res with
      | error e =>
        simp only [transPagesAux, hp, List.length_cons]
        omega
      | ok tr =>
        simp only [transPagesAux, hp, List.length_cons]
        omega

theorem transFilesAux_calls_le {E : Type} (client : PyStr → Except E (Option PyStr))
    (target_style extra : PyStr) :
    ∀ (cache : List (PyStr × List PyStr)) (done total : Nat),
      (transFilesAux client target_style extra done total cache).2.1 ≤ totalPages cache
  | [], _, _ => by simp [transFilesAux, totalPages]
  | (name, pages) :: rest, done, total => by
    have h1 := transPagesAux_calls_le client target_style extra pages 1 done total
    have h2 := transFilesAux_calls_le client target_style extra rest
      (done + pages.length) total
    have htp : totalPages ((name, pages) :: rest) = pages.length + totalPages rest := by
      simp [totalPages]
    cases hr1 : (transPagesAux client target_style extra 1 done total pages).1 with
    | error e =>
      simp only [transFilesAux, hr1]
      omega
    | ok tl =>
      simp only [transFilesAux, hr1]
      omega

theorem transPagesAux_reports {E : Type} (client : PyStr → Except E (Option PyStr))
    (target_style extra : PyStr) :
    ∀ (pages : List PyStr) (i done total : Nat) (tl : List (PyStr × PyStr)),
      (transPagesAux client target_style extra i done total pages).1 = Except.ok tl →
      (transPagesAux client target_style extra i done total pages).2.2 =
        (List.range pages.length).map (fun j => progressValue (done + j + 1) total)
  | [], _, _, _, _, _ => by simp [transPagesAux]
  | heb :: rest, i, done, total, tl, h => by
    cases hp : processPage client target_style extra heb with
    | mk res c =>
      cases res with
      | error e =>
        rw [transPagesAux] at h
        simp only [hp] at h
        exact Except.noConfusion h
      | ok tr =>
        rw [transPagesAux] at h
        simp only [hp] at h
        simp only [transPagesAux, hp]
        cases hr1 : (transPagesAux client target_style extra (i + 1) (done + 1) total rest).1 with
        | error e => rw [hr1] at h; simp [Except.map] at h
        | ok tl' =>
          have hrec := transPagesAux_reports client target_style extra rest
            (i + 1) (done + 1) total tl' hr1
          simp only [hrec, List.length_cons, List.range_succ_eq_map, List.map_cons,
            List.map_map]
          congr 1
          apply List.map_congr_left
          intro a _
          have harith : done + 1 + a + 1 = done + (a + 1) + 1 := by omega
          simp only [Function.comp_apply, Nat.succ_eq_add_one]
          rw [harith]

theorem transFilesAux_reports {E : Type} (client : PyStr → Except E (Option PyStr))
    (target_style extra : PyStr) :
    ∀ (cache : List (PyStr × List PyStr)) (done total : Nat)
      (fl : List (PyStr × List (PyStr × PyStr))),
      (transFilesAux client target_style extra done total cache).1 = Except.ok fl →
      (transFilesAux client target_style extra done total cache).2.2 =
        (List.range (totalPages cache)).map (fun j => progressValue (done + j + 1) total)
  | [], _, _, _, _ => by simp [transFilesAux, totalPages]
  | (name, pages) :: rest, done, total, fl, h => by
    cases hr1 : (transPagesAux client target_style extra 1 done total pages).1 with
    | error e =>
      rw [transFilesAux] at h
      simp only [hr1] at h
      exact Except.noConfusion h
    | ok tl =>
      rw [transFilesAux] at h
      simp only [hr1] at h
      simp only [transFilesAux, hr1]
      cases hr2 : (transFilesAux client target_style extra (done + pages.length) total rest).1 with
      | error e => rw [hr2] at h; simp [Except.map] at h
      | ok fl' =>
        have hp := transPagesAux_reports client target_style extra pages 1 done total tl hr1
        have hrest := transFilesAux_reports client target_style extra rest
          (done + pages.length) total fl' hr2
        have htp : totalPages ((name, pages) :: rest) = pages.length + totalPages rest := by
          simp [totalPages]
        rw [hp, hrest, htp, List.range_add, List.map_append, List.map_map]
        congr 1
        apply List.map_congr_left
        intro a _
        have : done + pages.length + a + 1 = done + (pages.length + a) + 1 := by omega
        simp [Function.comp, this]

/-- C9: an extraction failure aborts the run before any translation call is
made and produces no document; a translation failure aborts the run with the
error propagated and no document; and the number of remote calls never
exceeds the number of pages, so no retry happens at any layer. -/
theorem claim_C9_error_propagation {E β : Type}
    (getPages : β → Except E (List (Option PyStr)))
    (client : PyStr → Except E (Option PyStr)) (target_style extra : PyStr)
    (uploads : List (PyStr × β)) :
    (∀ e, extractAll getPages uploads = Except.error e →
      runPipeline getPages client target_style extra uploads =
        (Except.error e, 0, [])) ∧
    (∀ cache e, extractAll getPages uploads = Except.ok cache →
      (transFilesAux client target_style extra 0 (totalPages cache) cache).1 =
        Except.error e →
      (runPipeline getPages client target_style extra uploads).1 =
        Except.error e) ∧
    (∀ cache, extractAll getPages uploads = Except.ok cache →
      (transFilesAux client target_style extra 0 (totalPages cache) cache).2.1 ≤
        totalPages cache) := by
  refine ⟨fun e he => ?_, fun cache e hc ht => ?_, fun cache hc => ?_⟩
  · simp [runPipeline, he]
  · simp only [runPipeline, hc]
    rw [ht]
  · exact transFilesAux_calls_le client target_style extra cache 0 (totalPages cache)

/-- C9, witness: a concretely failing extractor aborts the run with the
error, zero calls and no reports. -/
theorem claim_C9_witness :
    runPipeline (E := Unit) (β := Unit) (fun _ => Except.error ())
      (fun _ => Except.ok none) (("S").toList) [] [(("f").toList, ())] =
      (Except.error (), 0, []) :=
  (claim_C9_error_propagation _ _ _ _ _).1 () rfl

/-- C6: in a successful run the reported progress values are exactly k over
the total page count for k from one to the total, hence equal to the clamped
ratio, monotonically non-decreasing, ending at one, and the denominator is
forced positive even for zero total pages. -/
theorem claim_C6_progress {E β : Type}
    (getPages : β → Except E (List (Option PyStr)))
    (client : PyStr → Except E (Option PyStr)) (target_style extra : PyStr)
    (uploads : List (PyStr × β)) (cache : List (PyStr × List PyStr))
    (doc : List DocElem) (calls : Nat) (reps : List ℚ)
    (hcache : extractAll getPages uploads = Except.ok cache)
    (hrun : runPipeline getPages client target_style extra uploads =
      (Except.ok doc, calls, reps)) :
    ∃ N, N = totalPages cache ∧
      reps = (List.range N).map (fun j => progressValue (j + 1) N) ∧
      (∀ k, 0 < N → k ≤ N →
        progressValue k N = (k : ℚ) / (N : ℚ)) ∧
      (∀ k k', k ≤ k' → progressValue k N ≤ progressValue k' N) ∧
      (0 < N → reps.getLast? = some 1) ∧
      0 < max N 1 := by
  have hreps : reps = (List.range (totalPages cache)).map
      (fun j => progressValue (j + 1) (totalPages cache)) := by
    rw [runPipeline] at hrun
    simp only [hcache] at hrun
    cases hfr : (transFilesAux client target_style extra 0 (totalPages cache) cache).1 with
    | error e =>
      rw [hfr] at hrun
      exact absurd (congrArg Prod.fst hrun) (by simp)
    | ok results =>
      rw [hfr] at hrun
      have h2 : reps =
          (transFilesAux client target_style extra 0 (totalPages cache) cache).2.2 :=
        (congrArg (fun p => p.2.2) hrun).symm
      rw [h2, transFilesAux_reports client target_style extra cache 0
        (totalPages cache) results hfr]
      apply List.map_congr_left
      intro a _
      norm_num
  refine ⟨totalPages cache, rfl, hreps, ?_, ?_, ?_, by omega⟩
  · intro k hN hk
    rw [progressValue, Nat.max_eq_left hN]
    have hNQ : (0 : ℚ) < (totalPages cache : ℚ) := by exact_mod_cast hN
    exact min_eq_left ((div_le_one hNQ).mpr (by exact_mod_cast hk))
  · intro k k' hkk
    have hd : (0 : ℚ) < ((max (totalPages cache) 1 : ℕ) : ℚ) := by
      have h1 : 0 < max (totalPages cache) 1 := by omega
      exact_mod_cast h1
    exact min_le_min ((div_le_div_iff_of_pos_right hd).mpr (by exact_mod_cast hkk)) le_rfl
  · intro hN
    rw [hreps, List.getLast?_eq_getElem?]
    have hlen : ((List.range (totalPages cache)).map
        (fun j => progressValue (j + 1) (totalPages cache))).length =
        totalPages cache := by simp
    rw [hlen, List.getElem?_map,
      List.getElem?_range (by omega : totalPages cache - 1 < totalPages cache)]
    have h1 : totalPages cache - 1 + 1 = totalPages cache := by omega
    have hNQ : (0 : ℚ) < (totalPages cache : ℚ) := by exact_mod_cast hN
    simp only [Option.map_some', h1, progressValue, Nat.max_eq_left hN]
    rw [div_self (ne_of_gt hNQ), min_self]

/-- C6, witness: a concrete one-page successful run reports exactly the
single value one. -/
theorem claim_C6_witness :
    ∃ N, N = totalPages [(("f").toList, [("aaaaaaaaaaa").toList])] ∧
      ([progressValue 1 1] : List ℚ) =
        (List.range N).map (fun j => progressValue (j + 1) N) ∧
      (∀ k, 0 < N → k ≤ N → progressValue k N = (k : ℚ) / (N : ℚ)) ∧
      (∀ k k', k ≤ k' → progressValue k N ≤ progressValue k' N) ∧
      (0 < N → ([progressValue 1 1] : List ℚ).getLast? = some 1) ∧
      0 < max N 1 :=
  claim_C6_progress (E := Unit) (β := Unit)
    (fun _ => Except.ok [some (("aaaaaaaaaaa").toList)])
    (fun _ => Except.ok (some (("X").toList))) (("S").toList) []
    [(("f").toList, ())] [(("f").toList, [("aaaaaaaaaaa").toList])]
    (build_docx [(("f").toList, [(("Page 1").toList, ("X").toList)])]) 1
    [progressValue 1 1] rfl rfl
